import Mathlib

/-!
Shallow embedding of the `stats` Rust library (`src/lib.rs`): four statistics
functions over slices of `f64`, returning `Option<f64>`.

Modelling choices:
* An `f64` is embedded as `F64`: an exact real payload (`fin x`) or one of the
  IEEE special values `nan`, `inf`, `neginf`.  Rounding is not modelled (finite
  arithmetic is exact real arithmetic); signed zeros are identified.
* A slice `&[f64]` is a `List F64`; `Option<f64>` is `Option F64`.
* A Rust panic (an `unwrap` of `None`) is modelled as `Except.error ()`, so
  `stddev` and `median`, whose bodies contain `unwrap` calls, return
  `Except Unit (Option F64)`.  `mean` and `l2` contain no panicking operation
  and are plain total functions.
* `Vec::sort_by` with the comparator `|a, b| a.partial_cmp(b).unwrap()` is
  modelled as a stable insertion sort in the `Except` monad that errors as soon
  as a comparison involving `nan` is performed (exactly the comparisons on
  which the Rust comparator's `unwrap` panics); on `nan`-free input it produces
  the ascending stable sort, extensionally equal to Rust's stable `sort_by`.
-/

set_option maxHeartbeats 1000000

namespace Stats

/-- Embedded `f64` value: an exact real, or one of the IEEE special values. -/
inductive F64 where
  | fin (x : ℝ)
  | nan
  | inf
  | neginf

/-- Whether a value is the IEEE `NaN`. -/
def F64.isNan : F64 → Bool
  | .nan => true
  | _ => false

/-- IEEE addition (`sum + i` in the accumulation loops). -/
noncomputable def fadd : F64 → F64 → F64
  | .nan, _ => .nan
  | _, .nan => .nan
  | .inf, .neginf => .nan
  | .neginf, .inf => .nan
  | .inf, _ => .inf
  | _, .inf => .inf
  | .neginf, _ => .neginf
  | _, .neginf => .neginf
  | .fin x, .fin y => .fin (x + y)

/-- IEEE subtraction (`i - avg` in `stddev`). -/
noncomputable def fsub : F64 → F64 → F64
  | .nan, _ => .nan
  | _, .nan => .nan
  | .inf, .inf => .nan
  | .neginf, .neginf => .nan
  | .inf, _ => .inf
  | .neginf, _ => .neginf
  | _, .inf => .neginf
  | _, .neginf => .inf
  | .fin x, .fin y => .fin (x - y)

/-- IEEE squaring: `v.powf(2.0)` as used in `stddev` and `l2`. -/
noncomputable def fsquare : F64 → F64
  | .nan => .nan
  | .inf => .inf
  | .neginf => .inf
  | .fin x => .fin (x ^ 2)

/-- IEEE square root: `v.sqrt()`; negative finite arguments give `NaN`. -/
noncomputable def fsqrt : F64 → F64
  | .nan => .nan
  | .inf => .inf
  | .neginf => .nan
  | .fin x => if x < 0 then .nan else .fin (Real.sqrt x)

/-- IEEE absolute value `v.abs()` (used only to state the spec's
`l2([v]) == Some(v.abs())`). -/
noncomputable def fabs : F64 → F64
  | .nan => .nan
  | .inf => .inf
  | .neginf => .inf
  | .fin x => .fin |x|

/-- `sum / (nums.len() as f64)` in `mean`.  In the source the division is only
reached in the non-empty branch, so `n ≥ 1` at every use site. -/
noncomputable def fdivNat : F64 → ℕ → F64
  | .nan, _ => .nan
  | .inf, _ => .inf
  | .neginf, _ => .neginf
  | .fin x, n => .fin (x / (n : ℝ))

/-- Rust's `f64::partial_cmp`: `None` when either operand is `NaN`, otherwise
the total order `neginf < finite < inf` with reals compared exactly. -/
noncomputable def pcmp : F64 → F64 → Option Ordering
  | .nan, _ => none
  | _, .nan => none
  | .neginf, .neginf => some .eq
  | .neginf, _ => some .lt
  | _, .neginf => some .gt
  | .inf, .inf => some .eq
  | _, .inf => some .lt
  | .inf, _ => some .gt
  | .fin x, .fin y =>
    if x < y then some .lt else if x = y then some .eq else some .gt

/-- The (non-strict) order on non-`NaN` values induced by `pcmp`; used to state
what "sorted ascending" means.  `NaN` is below/above nothing. -/
def fle : F64 → F64 → Prop
  | .nan, _ => False
  | _, .nan => False
  | .neginf, _ => True
  | _, .neginf => False
  | _, .inf => True
  | .inf, _ => False
  | .fin x, .fin y => x ≤ y

/-- The summation loop of `mean`: `for i in &nums[..] { sum = sum + i; }`. -/
noncomputable def sumLoop : F64 → List F64 → F64
  | acc, [] => acc
  | acc, i :: rest => sumLoop (fadd acc i) rest

/-- `mean` from `src/lib.rs`: `Some(0.0)` on the empty slice, otherwise the
left-to-right sum divided by the length. -/
noncomputable def mean (nums : List F64) : Option F64 :=
  if nums.isEmpty then some (.fin 0)
  else some (fdivNat (sumLoop (.fin 0) nums) nums.length)

/-- The buffer-building loop of `stddev`:
`for i in &nums[..] { sums.push((i - avg).powf(2.0)); }`. -/
noncomputable def pushLoop (avg : F64) : List F64 → List F64 → List F64
  | acc, [] => acc
  | acc, i :: rest => pushLoop avg (acc ++ [fsquare (fsub i avg)]) rest

/-- `stddev` from `src/lib.rs`.  The two `mean(..).unwrap()` calls are modelled
by matching on `mean`'s option and treating `none` as a panic
(`Except.error ()`). -/
noncomputable def stddev (nums : List F64) : Except Unit (Option F64) :=
  if nums.isEmpty then .ok none
  else if nums.length = 1 then .ok (some (.fin 0))
  else
    match mean nums with
    | none => .error ()
    | some avg =>
      match mean (pushLoop avg [] nums) with
      | none => .error ()
      | some m => .ok (some (fsqrt m))

/-- One insertion step of `sort_by(|a, b| a.partial_cmp(b).unwrap())`: walking
past elements the inserted one is greater than, erroring (panicking) when a
comparison is undefined. -/
noncomputable def pinsert (x : F64) : List F64 → Except Unit (List F64)
  | [] => .ok [x]
  | y :: ys =>
    match pcmp x y with
    | none => .error ()
    | some ord =>
      if ord = .gt then
        match pinsert x ys with
        | .error e => .error e
        | .ok t => .ok (y :: t)
      else .ok (x :: y :: ys)

/-- The stable sort `nums.sort_by(|a, b| a.partial_cmp(b).unwrap())`, as an
insertion sort that errors on any comparison involving `NaN`. -/
noncomputable def psort : List F64 → Except Unit (List F64)
  | [] => .ok []
  | x :: xs =>
    match psort xs with
    | .error e => .error e
    | .ok s => pinsert x s

/-- `median` from `src/lib.rs`: sort a copy, then index at `(len - 1) / 2`. -/
noncomputable def median (nums : List F64) : Except Unit (Option F64) :=
  match psort nums with
  | .error e => .error e
  | .ok sorted =>
    if h : sorted.length = 0 then .ok none
    else
      .ok (some (sorted.get ⟨(sorted.length - 1) / 2,
        Nat.lt_of_le_of_lt (Nat.div_le_self _ _)
          (Nat.sub_lt (Nat.pos_of_ne_zero h) Nat.one_pos)⟩))

/-- The accumulation loop of `l2`:
`for i in &nums[..] { sum = sum + i.powf(2.0); }`. -/
noncomputable def sqSumLoop : F64 → List F64 → F64
  | acc, [] => acc
  | acc, i :: rest => sqSumLoop (fadd acc (fsquare i)) rest

/-- `l2` from `src/lib.rs`: `Some(0.0)` on the empty slice, otherwise the
square root of the accumulated sum of squares. -/
noncomputable def l2 (nums : List F64) : Option F64 :=
  if nums.isEmpty then some (.fin 0)
  else some (fsqrt (sqSumLoop (.fin 0) nums))

/-- The sorted copy `median` works on (`[]` in the panicking case; only used
under hypotheses that rule the panic out). -/
noncomputable def sortedCopy (nums : List F64) : List F64 :=
  (psort nums).toOption.getD []

/-- `mean(..).unwrap()` as a total function: sound because `mean` never
returns `none`. -/
noncomputable def meanUnwrap (nums : List F64) : F64 :=
  (mean nums).getD (.fin 0)

/-! ### Loops versus list combinators -/

theorem sumLoop_eq_foldl (l : List F64) (acc : F64) :
    sumLoop acc l = l.foldl fadd acc := by
  induction l generalizing acc with
  | nil => rfl
  | cons i rest ih => simp [sumLoop, List.foldl, ih]

theorem pushLoop_eq (avg : F64) (l acc : List F64) :
    pushLoop avg acc l = acc ++ l.map (fun i => fsquare (fsub i avg)) := by
  induction l generalizing acc with
  | nil => simp [pushLoop]
  | cons i rest ih => simp [pushLoop, ih]

theorem sqSumLoop_eq_foldl (l : List F64) (acc : F64) :
    sqSumLoop acc l = (l.map fsquare).foldl fadd acc := by
  induction l generalizing acc with
  | nil => rfl
  | cons i rest ih => simp [sqSumLoop, List.foldl, ih]

/-! ### Basic facts about `mean` -/

theorem mean_isSome (l : List F64) : (mean l).isSome = true := by
  unfold mean; split <;> simp

theorem mean_empty : mean [] = some (.fin 0) := rfl

theorem mean_of_pos (l : List F64) (h : 0 < l.length) :
    mean l = some (fdivNat (l.foldl fadd (.fin 0)) l.length) := by
  have hne : l.isEmpty = false := by
    cases l with
    | nil => simp at h
    | cons a t => rfl
  unfold mean
  rw [sumLoop_eq_foldl]
  simp [hne]

/-! ### Pointwise arithmetic facts -/

theorem fadd_fin_zero (v : F64) : fadd (.fin 0) v = v := by
  cases v <;> simp [fadd]

theorem fsqrt_fsquare (v : F64) : fsqrt (fsquare v) = fabs v := by
  cases v with
  | fin x =>
    have hx : ¬ x ^ 2 < 0 := not_lt.mpr (sq_nonneg x)
    simp [fsquare, fsqrt, fabs, hx, Real.sqrt_sq_eq_abs]
  | nan => rfl
  | inf => rfl
  | neginf => rfl

/-! ### Facts about the partial comparison and the induced order -/

theorem fle_of_pcmp_not_gt (x y : F64) (o : Ordering) (h : pcmp x y = some o)
    (hgt : o ≠ Ordering.gt) : fle x y := by
  cases x <;> cases y <;>
    first
    | exact Option.noConfusion (h : (none : Option Ordering) = some o)
    | exact trivial
    | exact absurd (Option.some_injective _
        (h : some Ordering.gt = some o)).symm hgt
    | skip
  case fin.fin a b =>
    rcases lt_trichotomy a b with h1 | h1 | h1
    · exact le_of_lt h1
    · exact le_of_eq h1
    · replace h : (if a < b then some Ordering.lt
        else if a = b then some Ordering.eq else some Ordering.gt) = some o := h
      rw [if_neg (not_lt.mpr (le_of_lt h1)), if_neg (ne_of_gt h1)] at h
      exact absurd (Option.some_injective _ h).symm hgt

theorem fle_of_pcmp_gt (x y : F64) (h : pcmp x y = some Ordering.gt) :
    fle y x := by
  cases x <;> cases y <;>
    first
    | exact Option.noConfusion
        (h : (none : Option Ordering) = some Ordering.gt)
    | exact absurd (show some Ordering.lt = some Ordering.gt from h) (by decide)
    | exact absurd (show some Ordering.eq = some Ordering.gt from h) (by decide)
    | exact trivial
    | skip
  case fin.fin a b =>
    rcases lt_trichotomy a b with h1 | h1 | h1
    · replace h : (if a < b then some Ordering.lt
        else if a = b then some Ordering.eq else some Ordering.gt)
          = some Ordering.gt := h
      rw [if_pos h1] at h
      exact absurd h (by decide)
    · replace h : (if a < b then some Ordering.lt
        else if a = b then some Ordering.eq else some Ordering.gt)
          = some Ordering.gt := h
      rw [if_neg (not_lt.mpr (le_of_eq h1.symm)), if_pos h1] at h
      exact absurd h (by decide)
    · exact le_of_lt h1

theorem pcmp_isSome (x y : F64) (hx : x.isNan = false) (hy : y.isNan = false) :
    (pcmp x y).isSome = true := by
  cases x <;> cases y <;>
    first
    | exact rfl
    | exact Bool.noConfusion (hx : true = false)
    | exact Bool.noConfusion (hy : true = false)
    | skip
  case fin.fin a b =>
    show (if a < b then some Ordering.lt
      else if a = b then some Ordering.eq else some Ordering.gt).isSome = true
    by_cases h1 : a < b
    · rw [if_pos h1]; rfl
    · rw [if_neg h1]
      by_cases h2 : a = b
      · rw [if_pos h2]; rfl
      · rw [if_neg h2]; rfl

theorem fle_trans (x y z : F64) (h1 : fle x y) (h2 : fle y z) : fle x z := by
  cases x <;> cases y <;> cases z <;>
    first
    | exact trivial
    | exact (h1 : False).elim
    | exact (h2 : False).elim
    | exact le_trans (h1 : _ ≤ _) (h2 : _ ≤ _)

/-! ### Facts about the panicking insertion sort -/

theorem pinsert_perm (x : F64) (s t : List F64) (h : pinsert x s = .ok t) :
    t.Perm (x :: s) := by
  induction s generalizing t with
  | nil =>
    replace h : Except.ok [x] = Except.ok t := h
    simp at h
    subst h
    exact List.Perm.refl _
  | cons y ys ih =>
    unfold pinsert at h
    cases hc : pcmp x y with
    | none =>
      rw [hc] at h
      exact absurd (h : (Except.error () : Except Unit (List F64)) = .ok t)
        (by simp)
    | some ord =>
      rw [hc] at h
      replace h : (if ord = Ordering.gt then
          match pinsert x ys with
          | Except.error e => Except.error e
          | Except.ok t2 => Except.ok (y :: t2)
        else Except.ok (x :: y :: ys)) = Except.ok t := h
      by_cases hgt : ord = Ordering.gt
      · rw [if_pos hgt] at h
        cases ht : pinsert x ys with
        | error e =>
          rw [ht] at h
          exact absurd (h : (Except.error e : Except Unit (List F64)) = .ok t)
            (by simp)
        | ok t2 =>
          rw [ht] at h
          replace h : Except.ok (y :: t2) = Except.ok t := h
          simp at h
          subst h
          exact ((ih t2 ht).cons y).trans (List.Perm.swap x y ys)
      · rw [if_neg hgt] at h
        replace h : Except.ok (x :: y :: ys) = Except.ok t := h
        simp at h
        subst h
        exact List.Perm.refl _

theorem pinsert_ok (x : F64) (s : List F64) (hx : x.isNan = false)
    (hs : ∀ z ∈ s, z.isNan = false) : ∃ t, pinsert x s = .ok t := by
  induction s with
  | nil => exact ⟨[x], rfl⟩
  | cons y ys ih =>
    have hy : y.isNan = false := hs y (List.mem_cons_self y ys)
    obtain ⟨o, ho⟩ := Option.isSome_iff_exists.mp (pcmp_isSome x y hx hy)
    by_cases hgt : o = Ordering.gt
    · obtain ⟨t2, ht2⟩ := ih (fun z hz => hs z (List.mem_cons_of_mem y hz))
      refine ⟨y :: t2, ?_⟩
      show (match pcmp x y with
        | none => Except.error ()
        | some ord =>
          if ord = Ordering.gt then
            match pinsert x ys with
            | Except.error e => Except.error e
            | Except.ok t2 => Except.ok (y :: t2)
          else Except.ok (x :: y :: ys)) = Except.ok (y :: t2)
      rw [ho]
      show (if o = Ordering.gt then
          match pinsert x ys with
          | Except.error e => Except.error e
          | Except.ok t2 => Except.ok (y :: t2)
        else Except.ok (x :: y :: ys)) = Except.ok (y :: t2)
      rw [if_pos hgt, ht2]
    · refine ⟨x :: y :: ys, ?_⟩
      show (match pcmp x y with
        | none => Except.error ()
        | some ord =>
          if ord = Ordering.gt then
            match pinsert x ys with
            | Except.error e => Except.error e
            | Except.ok t2 => Except.ok (y :: t2)
          else Except.ok (x :: y :: ys)) = Except.ok (x :: y :: ys)
      rw [ho]
      show (if o = Ordering.gt then
          match pinsert x ys with
          | Except.error e => Except.error e
          | Except.ok t2 => Except.ok (y :: t2)
        else Except.ok (x :: y :: ys)) = Except.ok (x :: y :: ys)
      rw [if_neg hgt]

theorem pinsert_sorted (x : F64) (s t : List F64) (hs : s.Sorted fle)
    (h : pinsert x s = .ok t) : t.Sorted fle := by
  induction s generalizing t with
  | nil =>
    replace h : Except.ok [x] = Except.ok t := h
    simp at h
    subst h
    simp
  | cons y ys ih =>
    rw [List.sorted_cons] at hs
    unfold pinsert at h
    cases hc : pcmp x y with
    | none =>
      rw [hc] at h
      exact absurd (h : (Except.error () : Except Unit (List F64)) = .ok t)
        (by simp)
    | some ord =>
      rw [hc] at h
      replace h : (if ord = Ordering.gt then
          match pinsert x ys with
          | Except.error e => Except.error e
          | Except.ok t2 => Except.ok (y :: t2)
        else Except.ok (x :: y :: ys)) = Except.ok t := h
      by_cases hgt : ord = Ordering.gt
      · rw [if_pos hgt] at h
        cases ht : pinsert x ys with
        | error e =>
          rw [ht] at h
          exact absurd (h : (Except.error e : Except Unit (List F64)) = .ok t)
            (by simp)
        | ok t2 =>
          rw [ht] at h
          replace h : Except.ok (y :: t2) = Except.ok t := h
          simp at h
          subst h
          rw [List.sorted_cons]
          refine ⟨?_, ih t2 hs.2 ht⟩
          intro z hz
          have hz2 : z ∈ x :: ys := (pinsert_perm x ys t2 ht).mem_iff.mp hz
          rcases List.mem_cons.mp hz2 with hz3 | hz3
          · rw [hgt] at hc
            rw [hz3]
            exact fle_of_pcmp_gt x y hc
          · exact hs.1 z hz3
      · rw [if_neg hgt] at h
        replace h : Except.ok (x :: y :: ys) = Except.ok t := h
        simp at h
        subst h
        rw [List.sorted_cons]
        have hxy : fle x y := fle_of_pcmp_not_gt x y ord hc hgt
        refine ⟨?_, List.sorted_cons.mpr hs⟩
        intro z hz
        rcases List.mem_cons.mp hz with hz2 | hz2
        · rw [hz2]; exact hxy
        · exact fle_trans x y z hxy (hs.1 z hz2)

theorem psort_perm (l s : List F64) (h : psort l = .ok s) : s.Perm l := by
  induction l generalizing s with
  | nil =>
    replace h : Except.ok ([] : List F64) = Except.ok s := h
    simp at h
    subst h
    exact List.Perm.refl _
  | cons x xs ih =>
    unfold psort at h
    cases hps : psort xs with
    | error e =>
      rw [hps] at h
      exact absurd (h : (Except.error e : Except Unit (List F64)) = .ok s)
        (by simp)
    | ok s2 =>
      rw [hps] at h
      replace h : pinsert x s2 = Except.ok s := h
      exact (pinsert_perm x s2 s h).trans ((ih s2 hps).cons x)

theorem psort_sorted (l s : List F64) (h : psort l = .ok s) : s.Sorted fle := by
  induction l generalizing s with
  | nil =>
    replace h : Except.ok ([] : List F64) = Except.ok s := h
    simp at h
    subst h
    simp
  | cons x xs ih =>
    unfold psort at h
    cases hps : psort xs with
    | error e =>
      rw [hps] at h
      exact absurd (h : (Except.error e : Except Unit (List F64)) = .ok s)
        (by simp)
    | ok s2 =>
      rw [hps] at h
      replace h : pinsert x s2 = Except.ok s := h
      exact pinsert_sorted x s2 s (ih s2 hps) h

theorem psort_ok (l : List F64) (hl : ∀ z ∈ l, z.isNan = false) :
    ∃ s, psort l = .ok s := by
  induction l with
  | nil => exact ⟨[], rfl⟩
  | cons x xs ih =>
    obtain ⟨s2, hs2⟩ := ih (fun z hz => hl z (List.mem_cons_of_mem x hz))
    have hmem : ∀ z ∈ s2, z.isNan = false := fun z hz =>
      hl z (List.mem_cons_of_mem x ((psort_perm xs s2 hs2).mem_iff.mp hz))
    obtain ⟨t, ht⟩ := pinsert_ok x s2 (hl x (List.mem_cons_self x xs)) hmem
    refine ⟨t, ?_⟩
    show (match psort xs with
      | Except.error e => Except.error e
      | Except.ok s => pinsert x s) = Except.ok t
    rw [hs2]
    exact ht

/-! ### Derived facts about `stddev`, `median`, `l2` -/

theorem l2_isSome (l : List F64) : (l2 l).isSome = true := by
  unfold l2; split <;> simp

theorem noNan_mem (l : List F64) (h : l.any F64.isNan = false) :
    ∀ z ∈ l, z.isNan = false := by
  intro z hz
  cases hzn : z.isNan with
  | false => rfl
  | true =>
    have hany : l.any F64.isNan = true := List.any_eq_true.mpr ⟨z, hz, hzn⟩
    rw [hany] at h
    exact Bool.noConfusion h

theorem stddev_of_two_le (l : List F64) (h : 2 ≤ l.length) :
    stddev l = .ok (some (fsqrt (meanUnwrap
      (l.map (fun i => fsquare (fsub i (meanUnwrap l))))))) := by
  have hne : l.isEmpty = false := by
    cases l with
    | nil => simp at h
    | cons a t => rfl
  have h1 : l.length ≠ 1 := by omega
  obtain ⟨avg, havg⟩ := Option.isSome_iff_exists.mp (mean_isSome l)
  have hbuf : pushLoop avg [] l = l.map (fun i => fsquare (fsub i avg)) := by
    rw [pushLoop_eq]; rfl
  obtain ⟨m2, hm2⟩ := Option.isSome_iff_exists.mp
    (mean_isSome (l.map (fun i => fsquare (fsub i avg))))
  have hmu : meanUnwrap l = avg := by simp [meanUnwrap, havg]
  unfold stddev
  rw [if_neg (by simp [hne]), if_neg h1, havg]
  show (match mean (pushLoop avg [] l) with
    | none => Except.error ()
    | some m => Except.ok (some (fsqrt m))) = _
  rw [hbuf, hm2]
  show Except.ok (some (fsqrt m2)) = _
  rw [hmu]
  have hmu2 : meanUnwrap (l.map (fun i => fsquare (fsub i avg))) = m2 := by
    simp [meanUnwrap, hm2]
  rw [hmu2]

theorem stddev_ok (l : List F64) : ∃ r, stddev l = .ok r := by
  rcases l with _ | ⟨a, _ | ⟨b, rest⟩⟩
  · exact ⟨none, rfl⟩
  · exact ⟨some (.fin 0), rfl⟩
  · exact ⟨_, stddev_of_two_le (a :: b :: rest)
      (by simp only [List.length_cons]; omega)⟩

theorem median_none_of_psort (l s : List F64) (h : psort l = .ok s)
    (hlen : s.length = 0) : median l = .ok none := by
  unfold median
  rw [h]
  show (if hh : s.length = 0 then Except.ok none
    else Except.ok (some (s.get ⟨(s.length - 1) / 2,
      Nat.lt_of_le_of_lt (Nat.div_le_self _ _)
        (Nat.sub_lt (Nat.pos_of_ne_zero hh) Nat.one_pos)⟩))) = _
  rw [dif_pos hlen]

theorem median_eq_of_psort (l s : List F64) (h : psort l = .ok s)
    (hlen : s.length ≠ 0) :
    median l = .ok (some (s.get ⟨(s.length - 1) / 2,
      Nat.lt_of_le_of_lt (Nat.div_le_self _ _)
        (Nat.sub_lt (Nat.pos_of_ne_zero hlen) Nat.one_pos)⟩)) := by
  unfold median
  rw [h]
  show (if hh : s.length = 0 then Except.ok none
    else Except.ok (some (s.get ⟨(s.length - 1) / 2,
      Nat.lt_of_le_of_lt (Nat.div_le_self _ _)
        (Nat.sub_lt (Nat.pos_of_ne_zero hh) Nat.one_pos)⟩))) = _
  rw [dif_neg hlen]

theorem median_getD (l s : List F64) (h : psort l = .ok s)
    (hlen : s.length ≠ 0) :
    median l = .ok (some (s.getD ((s.length - 1) / 2) (F64.fin 0))) := by
  rw [median_eq_of_psort l s h hlen]
  congr 2
  exact (List.getD_eq_get _ _ _).symm

theorem sortedCopy_eq (l s : List F64) (h : psort l = .ok s) :
    sortedCopy l = s := by
  simp [sortedCopy, h, Except.toOption]

theorem median_ok (l : List F64) (h : ∀ z ∈ l, z.isNan = false) :
    ∃ r, median l = .ok r := by
  obtain ⟨s, hs⟩ := psort_ok l h
  by_cases hlen : s.length = 0
  · exact ⟨none, median_none_of_psort l s hs hlen⟩
  · exact ⟨_, median_eq_of_psort l s hs hlen⟩

/-! ### Claim theorems -/

/-- C1 counterexample: as stated, the claim is false — `median` panics
(the comparator's `unwrap` of `partial_cmp` fails) on the concrete input
`[NaN, 0.0]`. -/
theorem median_panics_on_nan :
    median [F64.nan, F64.fin 0] = .error () := rfl

/-- C1 (amended): `mean` and `l2` always return a present value, and `stddev`
never panics, for every input including ones with NaN/Infinity elements
(which propagate as numeric values); `median`, however, never panics only on
samples free of NaN. -/
theorem no_panic_amended (l : List F64) :
    (mean l).isSome = true ∧ (l2 l).isSome = true ∧
      stddev l ≠ .error () ∧
      (l.any F64.isNan = false → median l ≠ .error ()) := by
  refine ⟨mean_isSome l, l2_isSome l, ?_, ?_⟩
  · obtain ⟨r, hr⟩ := stddev_ok l
    rw [hr]
    simp
  · intro hnan
    obtain ⟨r, hr⟩ := median_ok l (noNan_mem l hnan)
    rw [hr]
    simp

/-- Witness for C1's amended theorem at the concrete sample `[5.0]`. -/
theorem no_panic_amended_witness :
    (mean [F64.fin 5]).isSome = true ∧ (l2 [F64.fin 5]).isSome = true ∧
      stddev [F64.fin 5] ≠ .error () ∧ median [F64.fin 5] ≠ .error () := by
  have h := no_panic_amended [F64.fin 5]
  exact ⟨h.1, h.2.1, h.2.2.1, h.2.2.2 (by decide)⟩

/-- C2: for every one-element sample `[v]`, `stddev` returns `Some(0.0)`,
`median` returns `Some(v)` and `l2` returns `Some(v.abs())`. -/
theorem singleton_stats (v : F64) :
    stddev [v] = .ok (some (F64.fin 0)) ∧ median [v] = .ok (some v) ∧
      l2 [v] = some (fabs v) := by
  refine ⟨rfl, ?_, ?_⟩
  · have hs : psort [v] = Except.ok [v] := rfl
    rw [median_getD [v] [v] hs (by simp)]
    simp
  show some (fsqrt (sqSumLoop (F64.fin 0) [v])) = some (fabs v)
  rw [show sqSumLoop (F64.fin 0) [v] = fadd (F64.fin 0) (fsquare v) from rfl,
    fadd_fin_zero, fsqrt_fsquare]

/-- Witness for C2 at the concrete value `2.0`. -/
theorem singleton_stats_witness :
    stddev [F64.fin 2] = .ok (some (F64.fin 0)) ∧
      median [F64.fin 2] = .ok (some (F64.fin 2)) ∧
      l2 [F64.fin 2] = some (fabs (F64.fin 2)) :=
  singleton_stats (F64.fin 2)

/-- C3: `mean` never returns an absent value: on the empty sample it is
`Some(0.0)`, and on a non-empty sample it is `Some` of the left-to-right
accumulated sum divided by the count cast to a float. -/
theorem mean_contract (l : List F64) :
    mean [] = some (F64.fin 0) ∧
      (0 < l.length →
        mean l = some (fdivNat (l.foldl fadd (F64.fin 0)) l.length)) :=
  ⟨rfl, fun h => mean_of_pos l h⟩

/-- Witness for C3 at the concrete sample `[2.0]`. -/
theorem mean_contract_witness :
    mean [] = some (F64.fin 0) ∧
      mean [F64.fin 2] = some (fdivNat ([F64.fin 2].foldl fadd (F64.fin 0))
        (List.length [F64.fin 2])) :=
  ⟨(mean_contract [F64.fin 2]).1, (mean_contract [F64.fin 2]).2 (by decide)⟩

/-- C4: `stddev` is absent exactly on the empty sample, is `Some(0.0)` on
one-element samples, and on samples of two or more elements is `Some` of the
square root of the mean of the squared deviations `(x_i - mean)^2`, the
deviations taken over a buffer of the same length in the same order
(here `List.map`). -/
theorem stddev_contract (l : List F64) :
    (stddev l = .ok none ↔ l.isEmpty = true) ∧
      (l.length = 1 → stddev l = .ok (some (F64.fin 0))) ∧
      (2 ≤ l.length → stddev l = .ok (some (fsqrt (meanUnwrap
        (l.map (fun i => fsquare (fsub i (meanUnwrap l)))))))) := by
  refine ⟨⟨?_, ?_⟩, ?_, stddev_of_two_le l⟩
  · intro h
    rcases l with _ | ⟨a, _ | ⟨b, rest⟩⟩
    · rfl
    · replace h : (Except.ok (some (F64.fin 0)) : Except Unit (Option F64))
        = .ok none := h
      simp at h
    · rw [stddev_of_two_le (a :: b :: rest)
        (by simp only [List.length_cons]; omega)] at h
      simp at h
  · intro h
    cases l with
    | nil => rfl
    | cons a t => exact Bool.noConfusion (show false = true from h)
  · intro h
    rcases l with _ | ⟨a, _ | ⟨b, rest⟩⟩
    · simp at h
    · rfl
    · simp only [List.length_cons] at h
      omega

/-- Witness for C4 at the concrete sample `[1.0, 3.0]`. -/
theorem stddev_contract_witness :
    stddev [F64.fin 1, F64.fin 3] = .ok (some (fsqrt (meanUnwrap
      ([F64.fin 1, F64.fin 3].map (fun i => fsquare (fsub i
        (meanUnwrap [F64.fin 1, F64.fin 3]))))))) :=
  (stddev_contract [F64.fin 1, F64.fin 3]).2.2 (by decide)

/-- C5: on NaN-free samples, `median` is absent exactly on the empty sample,
and on a non-empty sample returns the element at zero-based index
`(length - 1) / 2` (integer floor division) of an ascending-sorted copy of
the input. -/
theorem median_contract (l : List F64) (hnan : l.any F64.isNan = false) :
    (median l = .ok none ↔ l.isEmpty = true) ∧
      List.Sorted fle (sortedCopy l) ∧ (sortedCopy l).Perm l ∧
      (0 < l.length → median l = .ok (some ((sortedCopy l).getD
        ((l.length - 1) / 2) (F64.fin 0)))) := by
  obtain ⟨s, hs⟩ := psort_ok l (noNan_mem l hnan)
  have hsc : sortedCopy l = s := sortedCopy_eq l s hs
  have hperm := psort_perm l s hs
  have hlen : s.length = l.length := hperm.length_eq
  refine ⟨⟨?_, ?_⟩, ?_, ?_, ?_⟩
  · intro h
    by_cases h0 : s.length = 0
    · rw [hlen] at h0
      cases l with
      | nil => rfl
      | cons a t => simp at h0
    · rw [median_eq_of_psort l s hs h0] at h
      simp at h
  · intro h
    cases l with
    | nil => exact median_none_of_psort [] s hs (by rw [hlen]; rfl)
    | cons a t => exact Bool.noConfusion (show false = true from h)
  · rw [hsc]
    exact psort_sorted l s hs
  · rw [hsc]
    exact hperm
  · intro hpos
    have h0 : s.length ≠ 0 := by omega
    rw [median_getD l s hs h0, hsc, hlen]

/-- Witness for C5 at the concrete sample `[3.0]`. -/
theorem median_contract_witness :
    (median [F64.fin 3] = .ok none ↔ ([F64.fin 3] : List F64).isEmpty = true) ∧
      List.Sorted fle (sortedCopy [F64.fin 3]) ∧
      (sortedCopy [F64.fin 3]).Perm [F64.fin 3] ∧
      median [F64.fin 3] = .ok (some ((sortedCopy [F64.fin 3]).getD
        ((List.length [F64.fin 3] - 1) / 2) (F64.fin 0))) := by
  have h := median_contract [F64.fin 3] (by decide)
  exact ⟨h.1, h.2.1, h.2.2.1, h.2.2.2 (by decide)⟩

/-- C6: `l2` never returns an absent value: on the empty sample it is
`Some(0.0)`, and in general it is `Some` of the square root of the
in-order accumulated sum of squares. -/
theorem l2_contract (l : List F64) :
    l2 [] = some (F64.fin 0) ∧
      l2 l = some (fsqrt ((l.map fsquare).foldl fadd (F64.fin 0))) := by
  refine ⟨rfl, ?_⟩
  rcases l with _ | ⟨a, t⟩
  · have h0 : fsqrt (F64.fin 0) = F64.fin 0 := by
      simp [fsqrt, Real.sqrt_zero]
    show some (F64.fin 0)
      = some (fsqrt ((List.map fsquare ([] : List F64)).foldl fadd (F64.fin 0)))
    rw [show (List.map fsquare ([] : List F64)).foldl fadd (F64.fin 0)
      = F64.fin 0 from rfl, h0]
  · show some (fsqrt (sqSumLoop (F64.fin 0) (a :: t))) = _
    rw [sqSumLoop_eq_foldl]

/-- Witness for C6 at the concrete sample `[-3.0, 4.0]`. -/
theorem l2_contract_witness :
    l2 [] = some (F64.fin 0) ∧
      l2 [F64.fin (-3), F64.fin 4] = some (fsqrt
        (([F64.fin (-3), F64.fin 4].map fsquare).foldl fadd (F64.fin 0))) :=
  ⟨(l2_contract [F64.fin (-3), F64.fin 4]).1,
    (l2_contract [F64.fin (-3), F64.fin 4]).2⟩

/-- C7: whenever `median` returns a present value, that value is an element
of the original input sample. -/
theorem median_selects_element (l : List F64) (v : F64)
    (h : median l = .ok (some v)) : v ∈ l := by
  cases hs : psort l with
  | error e =>
    unfold median at h
    rw [hs] at h
    exact absurd (show (Except.error e : Except Unit (Option F64))
      = .ok (some v) from h) (by simp)
  | ok s =>
    by_cases h0 : s.length = 0
    · rw [median_none_of_psort l s hs h0] at h
      simp at h
    · rw [median_eq_of_psort l s hs h0] at h
      simp at h
      have hmem := List.get_mem s ((s.length - 1) / 2)
        (Nat.lt_of_le_of_lt (Nat.div_le_self _ _)
          (Nat.sub_lt (Nat.pos_of_ne_zero h0) Nat.one_pos))
      exact (psort_perm l s hs).mem_iff.mp (h ▸ hmem)

/-- Witness for C7 at the concrete sample `[0.0]`. -/
theorem median_selects_element_witness : F64.fin 0 ∈ [F64.fin 0] :=
  median_selects_element [F64.fin 0] (F64.fin 0) (by
    have hs : psort [F64.fin 0] = Except.ok [F64.fin 0] := rfl
    rw [median_getD [F64.fin 0] [F64.fin 0] hs (by simp)]
    simp)

/-- C9: on a non-empty sample, both internal `mean` calls of `stddev` (on the
original sample and on the squared-deviations buffer) return a present value,
so `stddev` never reaches its panic branches. -/
theorem stddev_unwraps_safe (l : List F64) (h : 0 < l.length) :
    mean l ≠ none ∧
      mean (l.map (fun i => fsquare (fsub i (meanUnwrap l)))) ≠ none ∧
      stddev l ≠ .error () := by
  refine ⟨?_, ?_, ?_⟩
  · intro hh
    have hsome := mean_isSome l
    rw [hh] at hsome
    exact Bool.noConfusion (show false = true from hsome)
  · intro hh
    have hsome := mean_isSome (l.map (fun i => fsquare (fsub i (meanUnwrap l))))
    rw [hh] at hsome
    exact Bool.noConfusion (show false = true from hsome)
  · obtain ⟨r, hr⟩ := stddev_ok l
    rw [hr]
    simp

/-- Witness for C9 at the concrete sample `[1.0]`. -/
theorem stddev_unwraps_safe_witness :
    mean [F64.fin 1] ≠ none ∧
      mean ([F64.fin 1].map (fun i => fsquare (fsub i
        (meanUnwrap [F64.fin 1])))) ≠ none ∧
      stddev [F64.fin 1] ≠ .error () :=
  stddev_unwraps_safe [F64.fin 1] (by decide)

/-- C10: on a NaN-free sample each of the four operations runs to completion
without panicking: `mean` and `l2` return present values, and `stddev` and
`median` never take a panic branch (in particular `median`'s sort never
faults). -/
theorem no_nan_no_fault (l : List F64) (h : l.any F64.isNan = false) :
    (mean l).isSome = true ∧ (l2 l).isSome = true ∧
      stddev l ≠ .error () ∧ median l ≠ .error () := by
  refine ⟨mean_isSome l, l2_isSome l, ?_, ?_⟩
  · obtain ⟨r, hr⟩ := stddev_ok l
    rw [hr]
    simp
  · obtain ⟨r, hr⟩ := median_ok l (noNan_mem l h)
    rw [hr]
    simp

/-- Witness for C10 at the concrete sample `[1.0, 2.0]`. -/
theorem no_nan_no_fault_witness :
    (mean [F64.fin 1, F64.fin 2]).isSome = true ∧
      (l2 [F64.fin 1, F64.fin 2]).isSome = true ∧
      stddev [F64.fin 1, F64.fin 2] ≠ .error () ∧
      median [F64.fin 1, F64.fin 2] ≠ .error () :=
  no_nan_no_fault [F64.fin 1, F64.fin 2] (by decide)

end Stats
